import Mathlib

/-!
Shallow embedding of the CurvRank identification pipeline
(`workers.py`, `_plugin.py`) and proofs about its claimed properties.

Numeric values (descriptor entries, distances, curvature values, scale
factors) are modelled as rationals; square roots, needed only to state
the unit-norm property of descriptors, live in the reals.

External collaborators that are not part of the two embedded source files
(the approximate-nearest-neighbour index, `dorsal_utils` routines such as
`oriented_curvature`, `resampleNd` and the split-point search) enter as
explicit function parameters: every theorem is about how the embedded code
uses their results, never about their internals.
-/

set_option autoImplicit false

namespace CurvRank

/-! ### Python dictionaries with rational values

`Dict` models a Python `dict` keyed by identity labels (opaque, here `ℕ`)
with float values.  `dictAdd` models `scores[c] += v`: it fails (models a
`KeyError`) when the key is absent, exactly as the Python code would. -/

abbrev Dict := List (ℕ × ℚ)

def dictKeys (d : Dict) : List ℕ :=
  d.map Prod.fst

def dictGet (d : Dict) (c : ℕ) : ℚ :=
  match d with
  | [] => 0
  | (a, b) :: t => if a = c then b else dictGet t c

def dictAdd (d : Dict) (c : ℕ) (v : ℚ) : Option Dict :=
  match d with
  | [] => none
  | (a, b) :: t =>
    if a = c then some ((a, b + v) :: t)
    else (dictAdd t c v).map (fun t2 => (a, b) :: t2)

def dictInit (ks : List ℕ) : Dict :=
  ks.map (fun c => (c, 0))

/-- Models `if rowid not in score_dict: score_dict[rowid] = 0.0` followed by
`score_dict[rowid] += v` (`_plugin.py`, `ibeis_plugin_curvrank_scores`). -/
def dictIncr (d : Dict) (c : ℕ) (v : ℚ) : Dict :=
  if c ∈ dictKeys d then (dictAdd d c v).getD d else d ++ [(c, v)]

/-- Entrywise accumulation of one per-scale score map into the running
total, as in the loop of `ibeis_plugin_curvrank_scores`. -/
def mergeAdd (acc d : Dict) : Dict :=
  d.foldl (fun a p => dictIncr a p.1 p.2) acc

/-! ### Sorting helpers (model `np.sort`, `np.unique`, `np.argsort`) -/

def insertAsc (i : ℕ) : List ℕ → List ℕ
  | [] => [i]
  | j :: t => if j ≤ i then j :: insertAsc i t else i :: j :: t

def sortNat : List ℕ → List ℕ
  | [] => []
  | i :: t => insertAsc i (sortNat t)

/-- Models `np.unique`: the distinct values, in ascending order. -/
def uniqueSorted (l : List ℕ) : List ℕ :=
  sortNat l.dedup

def insertByValAsc (vals : List ℚ) (i : ℕ) : List ℕ → List ℕ
  | [] => [i]
  | j :: t =>
    if vals.getD j 0 ≤ vals.getD i 0 then j :: insertByValAsc vals i t
    else i :: j :: t

def sortByValAsc (vals : List ℚ) : List ℕ → List ℕ
  | [] => []
  | i :: t => insertByValAsc vals i (sortByValAsc vals t)

/-- Models `idxs[np.argsort(vals[idxs])][::-1]`: the indices reordered so
that their values are descending. -/
def rankByValDesc (vals : List ℚ) (idxs : List ℕ) : List ℕ :=
  (sortByValAsc vals idxs).reverse

def minList (l : List ℚ) : ℚ :=
  match l with
  | [] => 0
  | a :: t => t.foldl min a

def maxList (l : List ℚ) : ℚ :=
  match l with
  | [] => 0
  | a :: t => t.foldl max a

/-! ### LNBNN scoring (`workers.py`, `identify_encounter_descriptors`)

The annoy index is external; a query is modelled by the pair
`(ind, dist)` that `index.get_nns_by_vector(data[i], k + 1)` returns:
neighbour indices and their distances.  `db_names` is the map from
neighbour index to identity label. -/

/-- `classes = np.array([db_names[idx] for idx in ind[:-1]])`. -/
def rowClasses (db_names : ℕ → ℕ) (nn : List ℕ × List ℚ) : List ℕ :=
  nn.1.dropLast.map db_names

/-- `score = dist[j.min()] - dist[-1]` where `j, = np.where(classes == c)`:
the distance at the first position whose class is `c`, minus the last
returned distance. -/
def rowAmount (db_names : ℕ → ℕ) (nn : List ℕ × List ℚ) (c : ℕ) : ℚ :=
  nn.2.getD ((rowClasses db_names nn).findIdx (fun x => x = c)) 0 - nn.2.getLastD 0

/-- The inner `for c in np.unique(classes): scores[c] += score` loop,
over an explicit list of classes. -/
def addClasses (amount : ℕ → ℚ) : List ℕ → Dict → Option Dict
  | [], sc => some sc
  | c :: cs, sc =>
    match dictAdd sc c (amount c) with
    | none => none
    | some sc2 => addClasses amount cs sc2

/-- Processing of one query descriptor row. -/
def procRow (db_names : ℕ → ℕ) (nn : List ℕ × List ℚ) (sc : Dict) : Option Dict :=
  addClasses (rowAmount db_names nn) (uniqueSorted (rowClasses db_names nn)) sc

/-- The `for i in range(data.shape[0])` loop over query descriptor rows of
one scale; `nns r` is the annoy result for row `r`. -/
def scoreRows {α : Type} (db_names : ℕ → ℕ) (nns : α → List ℕ × List ℚ) :
    List α → Dict → Option Dict
  | [], sc => some sc
  | r :: rs, sc =>
    match procRow db_names (nns r) sc with
    | none => none
    | some sc2 => scoreRows db_names nns rs sc2

/-- The `for s in descriptors_dict` loop over scales. -/
def scoreScales {σ α : Type} (db_names : ℕ → ℕ) (descs : σ → List α)
    (nns : σ → α → List ℕ × List ℚ) : List σ → Dict → Option Dict
  | [], sc => some sc
  | s :: ss, sc =>
    match scoreRows db_names (nns s) (descs s) sc with
    | none => none
    | some sc2 => scoreScales db_names descs nns ss sc2

/-- The scoring core of `identify_encounter_descriptors`:
`scores = {dind: 0.0 for dind in db_indivs}` followed by the two nested
loops.  `none` models an uncaught `KeyError`. -/
def identify_encounter_descriptors {σ α : Type} (db_indivs : List ℕ)
    (db_names : ℕ → ℕ) (scales : List σ) (descs : σ → List α)
    (nns : σ → α → List ℕ × List ℚ) : Option Dict :=
  scoreScales db_names descs nns scales (dictInit db_indivs)

/-- Per-row contribution of one query descriptor row to the score of
identity `x`, as the code computes it. -/
def rowContribution (db_names : ℕ → ℕ) (nn : List ℕ × List ℚ) (x : ℕ) : ℚ :=
  if x ∈ rowClasses db_names nn then rowAmount db_names nn x else 0

/-- The LNBNN rule as the spec states it: among the first `k` neighbours,
the minimum distance of identity `x`, minus the `(k+1)`-th neighbour's
distance (the normalizing distance); `0` if `x` is not among them. -/
def lnbnnContribution (k : ℕ) (db_names : ℕ → ℕ) (nn : List ℕ × List ℚ)
    (x : ℕ) : ℚ :=
  let classes := (nn.1.take k).map db_names
  if x ∈ classes then
    minList (((classes.zip nn.2).filter (fun p => p.1 = x)).map Prod.snd)
      - nn.2.getD k 0
  else 0

/-! ### Edge splitting (`workers.py`, `separate_edges`)

The split-index search (`dorsal_utils.separate_leading_trailing_edges`)
is external and enters as a parameter. -/

def separate_edges {P : Type} (splitFn : List P → Option ℕ)
    (outline : List P) :
    Option (List P) × Option (List P) :=
  if outline.length > 0 then
    match splitFn outline with
    | some idx => (some (outline.take idx), some (outline.drop idx))
    | none => (none, none)
  else (none, none)

/-! ### Curvature radii (`workers.py`, `compute_curvature`)

`dorsal_utils.oriented_curvature` is external and enters as a parameter;
the embedded part is the axis handling and the per-curve radii. -/

/-- `trailing_edge[:, ::-1]` when `transpose_dims` is false (ij → xy
column swap), `trailing_edge[::-1]` (row reversal) otherwise. -/
def transformEdge (transpose_dims : Bool) (te : List (ℚ × ℚ)) : List (ℚ × ℚ) :=
  if transpose_dims then te.reverse else te.map (fun p => (p.2, p.1))

/-- `trailing_edge[:, 1].max() - trailing_edge[:, 1].min()`. -/
def edgeExtent (te : List (ℚ × ℚ)) : ℚ :=
  maxList (te.map Prod.snd) - minList (te.map Prod.snd)

/-- `radii = scales * (trailing_edge[:, 1].max() - trailing_edge[:, 1].min())`. -/
def computeRadii (scales : List ℚ) (transpose_dims : Bool)
    (te : List (ℚ × ℚ)) : List ℚ :=
  scales.map (fun s => s * edgeExtent (transformEdge transpose_dims te))

/-- `compute_curvature`: `None` in, `None` out; otherwise the oriented
curvature of the transformed edge at the per-curve radii. -/
def compute_curvature {κ : Type} (oriented : List (ℚ × ℚ) → List ℚ → κ)
    (scales : List ℚ) (transpose_dims : Bool) (ote : Option (List (ℚ × ℚ))) :
    Option κ :=
  match ote with
  | none => none
  | some te =>
    some (oriented (transformEdge transpose_dims te)
      (computeRadii scales transpose_dims te))

/-! ### Keypoint selection (`workers.py`, `compute_curv_descriptors`)

The curvature matrix is a list of rows (positions along the resampled
trailing edge), each row one value per scale.  `none` models an uncaught
exception (`IndexError` / broadcast `ValueError`). -/

/-- `argrelextrema(v, np.greater, order=1)`: interior indices that are
strict local maxima. -/
def argrelmax (v : List ℚ) : List ℕ :=
  (List.range v.length).filter
    (fun i => decide (0 < i ∧ i + 1 < v.length ∧
      v.getD (i - 1) 0 < v.getD i 0 ∧ v.getD (i + 1) 0 < v.getD i 0))

/-- A Python slice `l[0:stop]` with a possibly negative `stop`. -/
def pySlice0 (stop : ℤ) (l : List ℕ) : List ℕ :=
  if 0 ≤ stop then l.take stop.toNat else l.take (l.length - stop.natAbs)

/-- `keypoints = np.zeros(m); keypoints[0], keypoints[-1] = 0, n;
keypoints[1:-1] = mid`.  `none` models the `IndexError` on an empty array
and the `ValueError` on a shape mismatch. -/
def buildKeypoints (m n : ℕ) (mid : List ℕ) : Option (List ℕ) :=
  if m = 0 then none
  else if m = 1 then (if mid = [] then some [n] else none)
  else if mid.length = m - 2 then some (0 :: mid ++ [n]) else none

/-- `np.linspace(0, n, numKp, dtype=np.int32)`. -/
def linspaceInt (n numKp : ℕ) : List ℕ :=
  if numKp = 0 then []
  else if numKp = 1 then [0]
  else (List.range numKp).map (fun i => i * n / (numKp - 1))

/-- The keypoint-selection block of `compute_curv_descriptors` (both the
`uniform` and the adaptive branch), for a resampled curvature matrix. -/
def compute_curv_descriptors_keypoints (uniform : Bool) (numKp : ℕ)
    (resampled : List (List ℚ)) : Option (List ℕ) :=
  if uniform then some (linspaceInt resampled.length numKp)
  else
    let lastCol := resampled.map (fun r => r.getLastD 0)
    let maxima := argrelmax lastCol
    let capped := pySlice0 ((numKp : ℤ) - 2) (rankByValDesc lastCol maxima)
    match sortNat capped with
    | [] => none
    | h :: t =>
      let mid := if h = 0 ∨ h = 1 then t else h :: t
      buildKeypoints (min numKp (2 + mid.length)) resampled.length mid

/-- The adaptive keypoint interior, as the spec describes it: local maxima
of the highest-scale column, ranked by magnitude descending, capped to
`numKp - 2`, maxima at index 0 or 1 discarded, the rest sorted by
position. -/
def specAdaptiveMid (numKp : ℕ) (lastCol : List ℚ) : List ℕ :=
  sortNat
    (((rankByValDesc lastCol (argrelmax lastCol)).take (numKp - 2)).filter
      (fun i => decide (i ≠ 0 ∧ i ≠ 1)))

/-! ### Descriptor normalization (`workers.py`, `compute_curv_descriptors`)

`feat /= np.sqrt(np.sum(feat * feat, axis=0))` normalizes each per-scale
column of the resampled span across the feature axis; each stored
descriptor vector is one such column.  The resampling itself
(`dorsal_utils.resampleNd`) is external, so the column is an arbitrary
rational vector here. -/

def sumSq (v : List ℚ) : ℚ :=
  (v.map (fun x => x * x)).sum

noncomputable def l2normalize (v : List ℚ) : List ℝ :=
  v.map (fun x => (Rat.cast x : ℝ) / Real.sqrt (Rat.cast (sumSq v) : ℝ))

noncomputable def l2norm (w : List ℝ) : ℝ :=
  Real.sqrt ((w.map (fun x => x * x)).sum)

/-! ### Pipeline stages (`_plugin.py`)

Each stage zips the incoming success flags with the incoming per-subject
values and applies its core computation only to still-successful
subjects; the cores (`F.extract_outline`, `F.separate_edges`,
`F.compute_curvature`, `F.compute_curvature_descriptors`) are parameters.
-/

def stageStep {β γ : Type} (f : Option β → Option γ) (p : Bool × Option β) :
    Bool × Option γ :=
  if p.1 then
    match f p.2 with
    | some c => (true, some c)
    | none => (false, none)
  else (false, none)

def stageRun {β γ : Type} (f : Option β → Option γ) (success_list : List Bool)
    (values : List (Option β)) : List Bool × List (Option γ) :=
  (((success_list.zip values).map (stageStep f)).map Prod.fst,
   ((success_list.zip values).map (stageStep f)).map Prod.snd)

def ibeis_plugin_curvrank_outline {α β : Type} (extract : Option α → Option β)
    (success_list : List Bool) (inputs : List (Option α)) :
    List Bool × List (Option β) :=
  stageRun extract success_list inputs

def ibeis_plugin_curvrank_trailing_edges {P : Type}
    (splitFn : List P → Option ℕ) (success_list : List Bool)
    (outlines : List (Option (List P))) :
    List Bool × List (Option (List P)) :=
  stageRun (fun oo => oo.bind (fun o => (separate_edges splitFn o).2))
    success_list outlines

def ibeis_plugin_curvrank_curvatures {κ : Type}
    (oriented : List (ℚ × ℚ) → List ℚ → κ) (scales : List ℚ)
    (transpose_dims : Bool) (success_list : List Bool)
    (trailing_edges : List (Option (List (ℚ × ℚ)))) :
    List Bool × List (Option κ) :=
  stageRun (fun ote => compute_curvature oriented scales transpose_dims ote)
    success_list trailing_edges

def ibeis_plugin_curvrank_curvature_descriptors {κ δ : Type}
    (computeDescs : κ → Option (List δ)) (scales : List ℚ)
    (success_list : List Bool) (curvatures : List (Option κ)) :
    List Bool × List (Option (List (ℚ × δ))) :=
  stageRun (fun oc => (oc.bind computeDescs).map (fun l => scales.zip l))
    success_list curvatures

/-- The stage chain of `ibeis_plugin_curvrank_pipeline_compute` from the
outline stage onward: each stage feeds its success flags and values to the
next; the quadruple collects every stage's output. -/
def ibeis_plugin_curvrank_pipeline_compute {α κ δ : Type}
    (extract : Option α → Option (List (ℚ × ℚ)))
    (splitFn : List (ℚ × ℚ) → Option ℕ)
    (oriented : List (ℚ × ℚ) → List ℚ → κ) (scalesQ : List ℚ) (td : Bool)
    (computeDescs : κ → Option (List δ)) (scalesD : List ℚ)
    (success_list : List Bool) (inputs : List (Option α)) :
    (List Bool × List (Option (List (ℚ × ℚ)))) ×
    (List Bool × List (Option (List (ℚ × ℚ)))) ×
    (List Bool × List (Option κ)) ×
    (List Bool × List (Option (List (ℚ × δ)))) :=
  let o := ibeis_plugin_curvrank_outline extract success_list inputs
  let t := ibeis_plugin_curvrank_trailing_edges splitFn o.1 o.2
  let c := ibeis_plugin_curvrank_curvatures oriented scalesQ td t.1 t.2
  let d := ibeis_plugin_curvrank_curvature_descriptors computeDescs scalesD
    c.1 c.2
  (o, t, c, d)

/-! ## Helper lemmas: dictionaries -/

@[simp]
theorem dictKeys_nil : dictKeys [] = [] := rfl

@[simp]
theorem dictKeys_cons (a : ℕ) (b : ℚ) (t : Dict) :
    dictKeys ((a, b) :: t) = a :: dictKeys t := rfl

@[simp]
theorem dictGet_nil (x : ℕ) : dictGet [] x = 0 := rfl

@[simp]
theorem dictGet_cons (a : ℕ) (b : ℚ) (t : Dict) (x : ℕ) :
    dictGet ((a, b) :: t) x = if a = x then b else dictGet t x := rfl

theorem dictKeys_dictAdd {d d2 : Dict} {c : ℕ} {v : ℚ}
    (h : dictAdd d c v = some d2) : dictKeys d2 = dictKeys d := by
  induction d generalizing d2 with
  | nil => simp [dictAdd] at h
  | cons p t ih =>
    obtain ⟨a, b⟩ := p
    by_cases hac : a = c
    · subst hac
      simp [dictAdd] at h
      subst h
      simp
    · simp [dictAdd, hac] at h
      obtain ⟨t2, ht2, hd2⟩ := h
      subst hd2
      simp [ih ht2]

theorem dictAdd_isSome {d : Dict} {c : ℕ} (v : ℚ) (h : c ∈ dictKeys d) :
    ∃ d2, dictAdd d c v = some d2 := by
  induction d with
  | nil => simp at h
  | cons p t ih =>
    obtain ⟨a, b⟩ := p
    by_cases hac : a = c
    · exact ⟨(a, b + v) :: t, by simp [dictAdd, hac]⟩
    · rw [dictKeys_cons, List.mem_cons] at h
      rcases h with h | h
      · exact absurd h.symm hac
      · obtain ⟨t2, ht2⟩ := ih h
        exact ⟨(a, b) :: t2, by simp [dictAdd, hac, ht2]⟩

theorem dictGet_dictAdd_self {d d2 : Dict} {c : ℕ} {v : ℚ}
    (h : dictAdd d c v = some d2) : dictGet d2 c = dictGet d c + v := by
  induction d generalizing d2 with
  | nil => simp [dictAdd] at h
  | cons p t ih =>
    obtain ⟨a, b⟩ := p
    by_cases hac : a = c
    · simp [dictAdd, hac] at h
      subst h
      simp [hac]
    · simp [dictAdd, hac] at h
      obtain ⟨t2, ht2, hd2⟩ := h
      subst hd2
      simp [hac, ih ht2]

theorem dictGet_dictAdd_ne {d d2 : Dict} {c x : ℕ} {v : ℚ}
    (h : dictAdd d c v = some d2) (hx : x ≠ c) :
    dictGet d2 x = dictGet d x := by
  induction d generalizing d2 with
  | nil => simp [dictAdd] at h
  | cons p t ih =>
    obtain ⟨a, b⟩ := p
    by_cases hac : a = c
    · subst hac
      simp [dictAdd] at h
      subst h
      have hax : ¬ (a = x) := fun hax => hx hax.symm
      simp [hax]
    · simp [dictAdd, hac] at h
      obtain ⟨t2, ht2, hd2⟩ := h
      subst hd2
      by_cases hax : a = x
      · simp [hax]
      · simp [hax, ih ht2]

theorem dictGet_dictInit (ks : List ℕ) (c : ℕ) : dictGet (dictInit ks) c = 0 := by
  induction ks with
  | nil => rfl
  | cons a t ih =>
    by_cases hac : a = c <;> simp [dictInit, hac] <;> simpa [dictInit] using ih

theorem dictKeys_dictInit (ks : List ℕ) : dictKeys (dictInit ks) = ks := by
  induction ks with
  | nil => rfl
  | cons a t ih => simpa [dictInit] using ih

theorem dictGet_eq_zero_of_not_mem {d : Dict} {x : ℕ} (h : x ∉ dictKeys d) :
    dictGet d x = 0 := by
  induction d with
  | nil => rfl
  | cons p t ih =>
    obtain ⟨a, b⟩ := p
    rw [dictKeys_cons, List.mem_cons] at h
    push_neg at h
    have hax : ¬ (a = x) := fun hax => h.1 hax.symm
    simp [hax, ih h.2]

/-! ## Helper lemmas: sorting -/

theorem insertAsc_perm (i : ℕ) (l : List ℕ) :
    List.Perm (insertAsc i l) (i :: l) := by
  induction l with
  | nil => rfl
  | cons j t ih =>
    by_cases hji : j ≤ i
    · simp only [insertAsc, if_pos hji]
      exact (ih.cons j).trans (List.Perm.swap i j t)
    · simp [insertAsc, hji]

theorem sortNat_perm (l : List ℕ) : List.Perm (sortNat l) l := by
  induction l with
  | nil => rfl
  | cons i t ih => exact (insertAsc_perm i (sortNat t)).trans (ih.cons i)

theorem mem_sortNat (x : ℕ) (l : List ℕ) : x ∈ sortNat l ↔ x ∈ l :=
  (sortNat_perm l).mem_iff

theorem sortNat_nodup {l : List ℕ} (h : l.Nodup) : (sortNat l).Nodup :=
  (sortNat_perm l).nodup_iff.mpr h

theorem insertAsc_sorted {l : List ℕ} (i : ℕ) (h : List.Sorted (· ≤ ·) l) :
    List.Sorted (· ≤ ·) (insertAsc i l) := by
  induction l with
  | nil => simp [insertAsc]
  | cons j t ih =>
    rw [List.sorted_cons] at h
    by_cases hji : j ≤ i
    · simp only [insertAsc, if_pos hji]
      rw [List.sorted_cons]
      refine ⟨fun b hb => ?_, ih h.2⟩
      rcases List.mem_cons.mp ((insertAsc_perm i t).mem_iff.mp hb) with hb | hb
      · exact hb ▸ hji
      · exact h.1 b hb
    · simp only [insertAsc, if_neg hji]
      rw [List.sorted_cons]
      refine ⟨fun b hb => ?_, List.sorted_cons.mpr h⟩
      rcases List.mem_cons.mp hb with hb | hb
      · exact hb ▸ Nat.le_of_not_le hji
      · exact le_of_lt (lt_of_lt_of_le (Nat.lt_of_not_le hji) (h.1 b hb))

theorem sortNat_sorted (l : List ℕ) : List.Sorted (· ≤ ·) (sortNat l) := by
  induction l with
  | nil => simp [sortNat]
  | cons i t ih => exact insertAsc_sorted i ih

theorem mem_uniqueSorted (x : ℕ) (l : List ℕ) : x ∈ uniqueSorted l ↔ x ∈ l := by
  rw [uniqueSorted, mem_sortNat, List.mem_dedup]

theorem uniqueSorted_nodup (l : List ℕ) : (uniqueSorted l).Nodup :=
  sortNat_nodup l.nodup_dedup

theorem insertByValAsc_perm (vals : List ℚ) (i : ℕ) (l : List ℕ) :
    List.Perm (insertByValAsc vals i l) (i :: l) := by
  induction l with
  | nil => rfl
  | cons j t ih =>
    by_cases hji : vals.getD j 0 ≤ vals.getD i 0
    · simp only [insertByValAsc, if_pos hji]
      exact (ih.cons j).trans (List.Perm.swap i j t)
    · simp only [insertByValAsc, if_neg hji]
      exact List.Perm.refl _

theorem sortByValAsc_perm (vals : List ℚ) (l : List ℕ) :
    List.Perm (sortByValAsc vals l) l := by
  induction l with
  | nil => rfl
  | cons i t ih =>
    exact (insertByValAsc_perm vals i (sortByValAsc vals t)).trans (ih.cons i)

theorem rankByValDesc_perm (vals : List ℚ) (l : List ℕ) :
    List.Perm (rankByValDesc vals l) l :=
  (List.reverse_perm _).trans (sortByValAsc_perm vals l)

/-! ## Helper lemmas: the scoring folds -/

theorem addClasses_spec (amount : ℕ → ℚ) (L : List ℕ) (sc : Dict)
    (hnd : L.Nodup) (hsub : ∀ x ∈ L, x ∈ dictKeys sc) :
    ∃ d2, addClasses amount L sc = some d2 ∧ dictKeys d2 = dictKeys sc ∧
      ∀ x, dictGet d2 x = dictGet sc x + (if x ∈ L then amount x else 0) := by
  induction L generalizing sc with
  | nil => exact ⟨sc, rfl, rfl, fun x => by simp⟩
  | cons c cs ih =>
    obtain ⟨sc1, hsc1⟩ := dictAdd_isSome (amount c) (hsub c (by simp))
    have hkeys1 := dictKeys_dictAdd hsc1
    have hnd2 := List.nodup_cons.mp hnd
    obtain ⟨d2, hd2, hkeys2, hget2⟩ :=
      ih sc1 hnd2.2 (fun x hx => by
        rw [hkeys1]
        exact hsub x (List.mem_cons_of_mem c hx))
    refine ⟨d2, ?_, hkeys2.trans hkeys1, fun x => ?_⟩
    · simp [addClasses, hsc1, hd2]
    · by_cases hxc : x = c
      · subst hxc
        rw [hget2 x, if_neg hnd2.1, dictGet_dictAdd_self hsc1]
        simp
      · rw [hget2 x, dictGet_dictAdd_ne hsc1 hxc]
        simp [hxc]

theorem procRow_spec (db_names : ℕ → ℕ) (nn : List ℕ × List ℚ) (sc : Dict)
    (hsub : ∀ x ∈ rowClasses db_names nn, x ∈ dictKeys sc) :
    ∃ d2, procRow db_names nn sc = some d2 ∧ dictKeys d2 = dictKeys sc ∧
      ∀ x, dictGet d2 x = dictGet sc x + rowContribution db_names nn x := by
  obtain ⟨d2, h1, h2, h3⟩ :=
    addClasses_spec (rowAmount db_names nn)
      (uniqueSorted (rowClasses db_names nn)) sc (uniqueSorted_nodup _)
      (fun x hx => hsub x ((mem_uniqueSorted _ _).mp hx))
  refine ⟨d2, h1, h2, fun x => ?_⟩
  rw [h3 x, rowContribution]
  by_cases hx : x ∈ rowClasses db_names nn
  · rw [if_pos ((mem_uniqueSorted _ _).mpr hx), if_pos hx]
  · rw [if_neg (fun hmem => hx ((mem_uniqueSorted _ _).mp hmem)), if_neg hx]

theorem scoreRows_spec {α : Type} (db_names : ℕ → ℕ)
    (nns : α → List ℕ × List ℚ) (rows : List α) (sc : Dict)
    (hsub : ∀ r ∈ rows, ∀ x ∈ rowClasses db_names (nns r), x ∈ dictKeys sc) :
    ∃ d2, scoreRows db_names nns rows sc = some d2 ∧
      dictKeys d2 = dictKeys sc ∧
      ∀ x, dictGet d2 x = dictGet sc x +
        ((rows.map (fun r => rowContribution db_names (nns r) x)).sum) := by
  induction rows generalizing sc with
  | nil => exact ⟨sc, rfl, rfl, fun x => by simp⟩
  | cons r rs ih =>
    obtain ⟨sc1, h1, hkeys1, hget1⟩ :=
      procRow_spec db_names (nns r) sc (hsub r (by simp))
    obtain ⟨d2, h2, hkeys2, hget2⟩ :=
      ih sc1 (fun q hq x hx => by
        rw [hkeys1]
        exact hsub q (List.mem_cons_of_mem r hq) x hx)
    refine ⟨d2, ?_, hkeys2.trans hkeys1, fun x => ?_⟩
    · simp [scoreRows, h1, h2]
    · rw [hget2 x, hget1 x]
      simp [add_assoc]

theorem scoreScales_spec {σ α : Type} (db_names : ℕ → ℕ) (descs : σ → List α)
    (nns : σ → α → List ℕ × List ℚ) (scales : List σ) (sc : Dict)
    (hsub : ∀ s ∈ scales, ∀ r ∈ descs s,
      ∀ x ∈ rowClasses db_names (nns s r), x ∈ dictKeys sc) :
    ∃ d2, scoreScales db_names descs nns scales sc = some d2 ∧
      dictKeys d2 = dictKeys sc ∧
      ∀ x, dictGet d2 x = dictGet sc x +
        ((scales.map (fun s =>
          ((descs s).map (fun r => rowContribution db_names (nns s r) x)).sum)).sum) := by
  induction scales generalizing sc with
  | nil => exact ⟨sc, rfl, rfl, fun x => by simp⟩
  | cons s ss ih =>
    obtain ⟨sc1, h1, hkeys1, hget1⟩ :=
      scoreRows_spec db_names (nns s) (descs s) sc (hsub s (by simp))
    obtain ⟨d2, h2, hkeys2, hget2⟩ :=
      ih sc1 (fun q hq r hr x hx => by
        rw [hkeys1]
        exact hsub q (List.mem_cons_of_mem s hq) r hr x hx)
    refine ⟨d2, ?_, hkeys2.trans hkeys1, fun x => ?_⟩
    · simp [scoreScales, h1, h2]
    · rw [hget2 x, hget1 x]
      simp [add_assoc]

/-! ## Helper lemmas: the LNBNN minimum-distance equivalence -/

theorem foldl_min_eq {l : List ℚ} {a : ℚ} (h : ∀ y ∈ l, a ≤ y) :
    l.foldl min a = a := by
  induction l with
  | nil => rfl
  | cons y t ih =>
    have hay : min a y = a := min_eq_left (h y (by simp))
    simp only [List.foldl_cons, hay]
    exact ih (fun z hz => h z (List.mem_cons_of_mem y hz))

theorem getD_irrel {α : Type} [Inhabited α] {l : List α} {n : ℕ}
    (h : n < l.length) (d1 d2 : α) : l.getD n d1 = l.getD n d2 := by
  rw [List.getD_eq_getElem?_getD, List.getD_eq_getElem?_getD,
    List.getElem?_eq_getElem h]
  rfl

theorem getLastD_eq_getD (ds : List ℚ) (dflt : ℚ) (k : ℕ)
    (h : ds.length = k + 1) : ds.getLastD dflt = ds.getD k dflt := by
  induction ds generalizing dflt k with
  | nil => simp at h
  | cons d t ih =>
    cases t with
    | nil =>
      simp at h
      subst h
      rfl
    | cons b t2 =>
      have hk : k = t2.length + 1 := by
        simp at h
        omega
      subst hk
      rw [List.getLastD_cons, ih d t2.length (by simp)]
      have hlt : t2.length < (b :: t2).length := by simp
      calc (b :: t2).getD t2.length d
          = (b :: t2).getD t2.length dflt := getD_irrel hlt d dflt
        _ = (d :: b :: t2).getD (t2.length + 1) dflt := rfl

theorem getD_findIdx_eq_min (classes : List ℕ) (ds : List ℚ) (x : ℕ)
    (hmem : x ∈ classes) (hlen : classes.length ≤ ds.length)
    (hs : List.Sorted (· ≤ ·) ds) :
    ds.getD (classes.findIdx (fun y => y = x)) 0
      = minList (((classes.zip ds).filter (fun p => p.1 = x)).map Prod.snd) := by
  induction classes generalizing ds with
  | nil => simp at hmem
  | cons c cs ih =>
    cases ds with
    | nil => simp at hlen
    | cons d ds2 =>
      rw [List.sorted_cons] at hs
      by_cases hcx : c = x
      · have hfind : (c :: cs).findIdx (fun y => y = x) = 0 := by
          simp [List.findIdx_cons, hcx]
        rw [hfind]
        have hfilter : ((c :: cs).zip (d :: ds2)).filter (fun p => p.1 = x)
            = (c, d) :: ((cs.zip ds2).filter (fun p => p.1 = x)) := by
          simp [List.zip_cons_cons, List.filter_cons, hcx]
        rw [hfilter]
        simp only [List.map_cons, minList]
        refine (foldl_min_eq (fun y hy => ?_)).symm
        obtain ⟨p, hp, hpy⟩ := List.mem_map.mp hy
        have hpz : p ∈ cs.zip ds2 := List.mem_of_mem_filter hp
        exact hpy ▸ hs.1 p.2 (List.of_mem_zip hpz).2
      · have hfind : (c :: cs).findIdx (fun y => y = x)
            = cs.findIdx (fun y => y = x) + 1 := by
          simp [List.findIdx_cons, hcx]
        rw [hfind]
        have hfilter : ((c :: cs).zip (d :: ds2)).filter (fun p => p.1 = x)
            = (cs.zip ds2).filter (fun p => p.1 = x) := by
          simp [List.zip_cons_cons, List.filter_cons, hcx]
        rw [hfilter]
        have hmem2 : x ∈ cs := by
          rcases List.mem_cons.mp hmem with hx | hx
          · exact absurd hx.symm hcx
          · exact hx
        have hlen2 : cs.length ≤ ds2.length := by
          simp at hlen
          omega
        exact ih ds2 hmem2 hlen2 hs.2


theorem rowContribution_eq_lnbnn (k : ℕ) (db_names : ℕ → ℕ)
    (nn : List ℕ × List ℚ) (x : ℕ)
    (h1 : nn.1.length = k + 1) (h2 : nn.2.length = k + 1)
    (hs : List.Sorted (· ≤ ·) nn.2) :
    rowContribution db_names nn x = lnbnnContribution k db_names nn x := by
  obtain ⟨ind, ds⟩ := nn
  simp only at h1 h2 hs
  have hdl : ind.dropLast = ind.take k := by
    rw [List.dropLast_eq_take, h1]
    simp
  simp only [rowContribution, rowAmount, rowClasses, lnbnnContribution, hdl]
  by_cases hx : x ∈ (ind.take k).map db_names
  · rw [if_pos hx, if_pos hx]
    have hclen : ((ind.take k).map db_names).length ≤ ds.length := by
      simp [h1, h2]
    rw [getD_findIdx_eq_min ((ind.take k).map db_names) ds x hx hclen hs,
      getLastD_eq_getD ds 0 k h2]
  · rw [if_neg hx, if_neg hx]

/-! ## Claim C1 -/

/-- C1: for every query descriptor row and every scale, given that the index
returns `k + 1` neighbours with distances in ascending order, the scorer of
`identify_encounter_descriptors` uses the `(k+1)`-th neighbour's distance as
the normalizing distance and, for each distinct identity among the first `k`
neighbours, adds that identity's minimum top-`k` distance minus the
normalizing distance to its running score, summing over all query rows and
all scales. -/
theorem lnbnn_scoring_rule {σ α : Type} (db_indivs : List ℕ) (db_names : ℕ → ℕ)
    (scales : List σ) (descs : σ → List α) (nns : σ → α → List ℕ × List ℚ)
    (k : ℕ)
    (h : ∀ s ∈ scales, ∀ r ∈ descs s,
      (nns s r).1.length = k + 1 ∧ (nns s r).2.length = k + 1 ∧
      List.Sorted (· ≤ ·) (nns s r).2 ∧
      ∀ x ∈ rowClasses db_names (nns s r), x ∈ db_indivs) :
    ∃ d, identify_encounter_descriptors db_indivs db_names scales descs nns
        = some d ∧
      ∀ x, dictGet d x =
        (scales.map (fun s =>
          ((descs s).map (fun r =>
            lnbnnContribution k db_names (nns s r) x)).sum)).sum := by
  obtain ⟨d, hd, hkeys, hget⟩ :=
    scoreScales_spec db_names descs nns scales (dictInit db_indivs)
      (fun s hs r hr x hx => by
        rw [dictKeys_dictInit]
        exact (h s hs r hr).2.2.2 x hx)
  refine ⟨d, hd, fun x => ?_⟩
  rw [hget x, dictGet_dictInit, zero_add]
  congr 1
  refine List.map_congr_left (fun s hs => ?_)
  congr 1
  refine List.map_congr_left (fun r hr => ?_)
  obtain ⟨h1, h2, h3, _⟩ := h s hs r hr
  exact rowContribution_eq_lnbnn k db_names (nns s r) x h1 h2 h3

/-- C1 witness: one scale, one query row, `k = 2`, three returned neighbours
with ascending distances over a two-identity reference set. -/
theorem lnbnn_scoring_rule_witness :
    (∀ s ∈ ([0] : List ℕ), ∀ r ∈ ([0] : List ℕ),
      (([0, 1, 2] : List ℕ).length = 2 + 1 ∧
        ([1, 2, 4] : List ℚ).length = 2 + 1 ∧
        List.Sorted (· ≤ ·) ([1, 2, 4] : List ℚ) ∧
        ∀ x ∈ rowClasses (fun i => if i = 0 then 5 else 7)
          ([0, 1, 2], [1, 2, 4]), x ∈ [5, 7])) ∧
    ∃ d, identify_encounter_descriptors [5, 7]
        (fun i => if i = 0 then 5 else 7) [0]
        (fun _ : ℕ => [0]) (fun _ _ : ℕ => (([0, 1, 2] : List ℕ), ([1, 2, 4] : List ℚ)))
        = some d ∧
      ∀ x, dictGet d x =
        (([0] : List ℕ).map (fun _ =>
          (([0] : List ℕ).map (fun _ =>
            lnbnnContribution 2 (fun i => if i = 0 then 5 else 7)
              ([0, 1, 2], [1, 2, 4]) x)).sum)).sum :=
  ⟨by decide,
    lnbnn_scoring_rule [5, 7] (fun i => if i = 0 then 5 else 7) [0]
      (fun _ => [0]) (fun _ _ => ([0, 1, 2], [1, 2, 4])) 2 (by decide)⟩

/-! ## Claim C2 -/

/-- C2: the Score Map returned by `identify_encounter_descriptors` has
exactly one key per identity in the reference set (initialized to `0.0`),
and an identity never retrieved keeps score `0`. -/
theorem score_map_keys {σ α : Type} (db_indivs : List ℕ) (db_names : ℕ → ℕ)
    (scales : List σ) (descs : σ → List α) (nns : σ → α → List ℕ × List ℚ)
    (hnd : db_indivs.Nodup)
    (h : ∀ s ∈ scales, ∀ r ∈ descs s,
      ∀ x ∈ rowClasses db_names (nns s r), x ∈ db_indivs) :
    ∃ d, identify_encounter_descriptors db_indivs db_names scales descs nns
        = some d ∧
      dictKeys d = db_indivs ∧ (dictKeys d).Nodup ∧
      ∀ x, (∀ s ∈ scales, ∀ r ∈ descs s,
        x ∉ rowClasses db_names (nns s r)) → dictGet d x = 0 := by
  obtain ⟨d, hd, hkeys, hget⟩ :=
    scoreScales_spec db_names descs nns scales (dictInit db_indivs)
      (fun s hs r hr x hx => by
        rw [dictKeys_dictInit]
        exact h s hs r hr x hx)
  rw [dictKeys_dictInit] at hkeys
  refine ⟨d, hd, hkeys, hkeys ▸ hnd, fun x hx => ?_⟩
  rw [hget x, dictGet_dictInit, zero_add]
  refine List.sum_eq_zero (fun q hq => ?_)
  obtain ⟨s, hs, hq⟩ := List.mem_map.mp hq
  refine hq ▸ List.sum_eq_zero (fun w hw => ?_)
  obtain ⟨r, hr, hw⟩ := List.mem_map.mp hw
  rw [← hw, rowContribution, if_neg (hx s hs r hr)]

/-- C2 witness: the spec scenario shape — a reference set of three
identities queried at two scales with `k = 2` yields a Score Map with
exactly the three identity keys. -/
theorem score_map_keys_witness :
    (([1, 2, 3] : List ℕ).Nodup ∧
      ∀ s ∈ ([0, 1] : List ℕ), ∀ r ∈ ([0] : List ℕ),
        ∀ x ∈ rowClasses (fun i => i % 3 + 1) ([0, 1, 2], [1, 2, 3]),
          x ∈ [1, 2, 3]) ∧
    ∃ d, identify_encounter_descriptors [1, 2, 3] (fun i => i % 3 + 1)
        [0, 1] (fun _ : ℕ => [0])
        (fun _ _ : ℕ => (([0, 1, 2] : List ℕ), ([1, 2, 3] : List ℚ)))
        = some d ∧
      dictKeys d = [1, 2, 3] ∧ (dictKeys d).Nodup ∧
      ∀ x, (∀ s ∈ ([0, 1] : List ℕ), ∀ r ∈ ([0] : List ℕ),
        x ∉ rowClasses (fun i => i % 3 + 1) ([0, 1, 2], [1, 2, 3])) →
        dictGet d x = 0 :=
  ⟨⟨by decide, by decide⟩,
    score_map_keys [1, 2, 3] (fun i => i % 3 + 1) [0, 1] (fun _ => [0])
      (fun _ _ => ([0, 1, 2], [1, 2, 3])) (by decide) (by decide)⟩

/-! ## Helper lemmas: entrywise merging of score maps -/

theorem dictGet_append (a b : Dict) (x : ℕ) :
    dictGet (a ++ b) x = if x ∈ dictKeys a then dictGet a x else dictGet b x := by
  induction a with
  | nil => simp
  | cons p t ih =>
    obtain ⟨c, v⟩ := p
    by_cases hcx : c = x
    · subst hcx
      simp
    · have hxc : ¬ (x = c) := fun hh => hcx hh.symm
      simp [hcx, hxc, ih]

theorem dictGet_dictIncr (a : Dict) (c : ℕ) (v : ℚ) (x : ℕ) :
    dictGet (dictIncr a c v) x = dictGet a x + (if c = x then v else 0) := by
  by_cases hc : c ∈ dictKeys a
  · obtain ⟨a2, ha2⟩ := dictAdd_isSome v hc
    rw [dictIncr, if_pos hc, ha2]
    simp only [Option.getD_some]
    by_cases hx : x = c
    · subst hx
      rw [dictGet_dictAdd_self ha2, if_pos rfl]
    · rw [dictGet_dictAdd_ne ha2 hx, if_neg (fun hh => hx hh.symm), add_zero]
  · rw [dictIncr, if_neg hc, dictGet_append]
    by_cases hx : x ∈ dictKeys a
    · have hcx : ¬ (c = x) := fun hh => hc (hh ▸ hx)
      rw [if_pos hx, if_neg hcx, add_zero]
    · rw [if_neg hx, dictGet_eq_zero_of_not_mem hx, zero_add]
      by_cases hcx : c = x
      · simp [hcx]
      · have hxc : ¬ (x = c) := fun hh => hcx hh.symm
        simp [hxc, hcx]

theorem mergeAdd_get (d acc : Dict) (x : ℕ) :
    dictGet (mergeAdd acc d) x
      = dictGet acc x + ((d.map (fun p => if p.1 = x then p.2 else 0)).sum) := by
  induction d generalizing acc with
  | nil => simp [mergeAdd]
  | cons p t ih =>
    have hstep : mergeAdd acc (p :: t) = mergeAdd (dictIncr acc p.1 p.2) t := rfl
    rw [hstep, ih, dictGet_dictIncr]
    simp [add_assoc]

theorem entrySum_eq_dictGet {d : Dict} (x : ℕ) (hnd : (dictKeys d).Nodup) :
    ((d.map (fun p => if p.1 = x then p.2 else 0)).sum) = dictGet d x := by
  induction d with
  | nil => simp
  | cons p t ih =>
    obtain ⟨c, v⟩ := p
    rw [dictKeys_cons, List.nodup_cons] at hnd
    by_cases hcx : c = x
    · subst hcx
      have hzero : ((t.map (fun p => if p.1 = c then p.2 else 0)).sum) = 0 := by
        refine List.sum_eq_zero (fun q hq => ?_)
        obtain ⟨p2, hp2, hq2⟩ := List.mem_map.mp hq
        have hne : ¬ (p2.1 = c) := by
          intro hh
          exact hnd.1 (hh ▸ List.mem_map_of_mem Prod.fst hp2)
        rw [← hq2, if_neg hne]
      simp [hzero]
    · simp [hcx, ih hnd.2]

/-! ## Claim C9 -/

/-- C9: score accumulation is linear — the Score Map of a combined
descriptor batch is the entrywise sum of the Score Maps of two disjoint
batches, and per-scale score maps are merged entrywise with
zero-initialization for unseen identities. -/
theorem score_accumulation_linear :
    (∀ (α : Type) (db_names : ℕ → ℕ) (nns : α → List ℕ × List ℚ)
      (rows1 rows2 : List α) (ks : List ℕ),
      (∀ r ∈ rows1 ++ rows2, ∀ x ∈ rowClasses db_names (nns r), x ∈ ks) →
      ∃ d d1 d2,
        scoreRows db_names nns (rows1 ++ rows2) (dictInit ks) = some d ∧
        scoreRows db_names nns rows1 (dictInit ks) = some d1 ∧
        scoreRows db_names nns rows2 (dictInit ks) = some d2 ∧
        ∀ x, dictGet d x = dictGet d1 x + dictGet d2 x) ∧
    (∀ (acc d : Dict), (dictKeys d).Nodup →
      ∀ x, dictGet (mergeAdd acc d) x = dictGet acc x + dictGet d x) := by
  constructor
  · intro α db_names nns rows1 rows2 ks hsub
    have hsub1 : ∀ r ∈ rows1, ∀ x ∈ rowClasses db_names (nns r),
        x ∈ dictKeys (dictInit ks) := fun r hr x hx => by
      rw [dictKeys_dictInit]
      exact hsub r (List.mem_append_left rows2 hr) x hx
    have hsub2 : ∀ r ∈ rows2, ∀ x ∈ rowClasses db_names (nns r),
        x ∈ dictKeys (dictInit ks) := fun r hr x hx => by
      rw [dictKeys_dictInit]
      exact hsub r (List.mem_append_right rows1 hr) x hx
    have hsub12 : ∀ r ∈ rows1 ++ rows2, ∀ x ∈ rowClasses db_names (nns r),
        x ∈ dictKeys (dictInit ks) := fun r hr x hx => by
      rw [dictKeys_dictInit]
      exact hsub r hr x hx
    obtain ⟨d, hd, _, hgetd⟩ := scoreRows_spec db_names nns (rows1 ++ rows2)
      (dictInit ks) hsub12
    obtain ⟨d1, hd1, _, hgetd1⟩ := scoreRows_spec db_names nns rows1
      (dictInit ks) hsub1
    obtain ⟨d2, hd2, _, hgetd2⟩ := scoreRows_spec db_names nns rows2
      (dictInit ks) hsub2
    refine ⟨d, d1, d2, hd, hd1, hd2, fun x => ?_⟩
    rw [hgetd x, hgetd1 x, hgetd2 x, dictGet_dictInit]
    simp [List.map_append]
  · intro acc d hnd x
    rw [mergeAdd_get, entrySum_eq_dictGet x hnd]

/-- C9 witness: a two-row batch split into singleton batches over a
two-identity reference set, and a concrete entrywise merge. -/
theorem score_accumulation_linear_witness :
    ((∀ r ∈ ([0] ++ [1] : List ℕ),
        ∀ x ∈ rowClasses (fun i => if i = 0 then 5 else 7)
          ([0, 1, 2], [1, 2, 4]), x ∈ [5, 7]) ∧
      ∃ d d1 d2,
        scoreRows (fun i => if i = 0 then 5 else 7)
          (fun _ : ℕ => (([0, 1, 2] : List ℕ), ([1, 2, 4] : List ℚ)))
          ([0] ++ [1]) (dictInit [5, 7]) = some d ∧
        scoreRows (fun i => if i = 0 then 5 else 7)
          (fun _ : ℕ => (([0, 1, 2] : List ℕ), ([1, 2, 4] : List ℚ)))
          [0] (dictInit [5, 7]) = some d1 ∧
        scoreRows (fun i => if i = 0 then 5 else 7)
          (fun _ : ℕ => (([0, 1, 2] : List ℕ), ([1, 2, 4] : List ℚ)))
          [1] (dictInit [5, 7]) = some d2 ∧
        ∀ x, dictGet d x = dictGet d1 x + dictGet d2 x) ∧
    (dictKeys [((1 : ℕ), (3 : ℚ)), (2, 5)]).Nodup ∧
    ∀ x, dictGet (mergeAdd [((1 : ℕ), (2 : ℚ))] [(1, 3), (2, 5)]) x
      = dictGet [((1 : ℕ), (2 : ℚ))] x + dictGet [((1 : ℕ), (3 : ℚ)), (2, 5)] x :=
  ⟨⟨by decide,
    score_accumulation_linear.1 ℕ (fun i => if i = 0 then 5 else 7)
      (fun _ => ([0, 1, 2], [1, 2, 4])) [0] [1] [5, 7] (by decide)⟩,
   by decide,
   score_accumulation_linear.2 [(1, 2)] [(1, 3), (2, 5)] (by decide)⟩

/-! ## Claim C6 -/

/-- C6: whenever the split search yields an index on a non-empty outline,
`separate_edges` returns the prefix up to that index as the leading edge
and the remaining suffix as the trailing edge; the two parts are
contiguous, non-overlapping and their lengths sum to the outline length. -/
theorem separate_edges_partition (splitFn : List (ℤ × ℤ) → Option ℕ)
    (outline : List (ℤ × ℤ)) (idx : ℕ)
    (hne : outline ≠ []) (hsplit : splitFn outline = some idx) :
    separate_edges splitFn outline
      = (some (outline.take idx), some (outline.drop idx)) ∧
    (outline.take idx).length + (outline.drop idx).length = outline.length ∧
    outline.take idx ++ outline.drop idx = outline ∧
    (outline.take idx).length = min idx outline.length := by
  have hlen : outline.length > 0 := List.length_pos.mpr hne
  refine ⟨?_, ?_, List.take_append_drop idx outline, List.length_take idx outline⟩
  · rw [separate_edges, if_pos hlen, hsplit]
  · rw [List.length_take, List.length_drop]
    omega

/-- C6 witness: the spec scenario — an outline of 100 points split at
index 60 yields a leading edge of 60 points and a trailing edge of 40. -/
theorem separate_edges_partition_witness :
    (List.replicate 100 ((0 : ℤ), (0 : ℤ)) ≠ [] ∧
      (fun _ : List (ℤ × ℤ) => some 60) (List.replicate 100 ((0 : ℤ), (0 : ℤ)))
        = some 60) ∧
    (separate_edges (fun _ => some 60) (List.replicate 100 ((0 : ℤ), (0 : ℤ)))
      = (some ((List.replicate 100 ((0 : ℤ), (0 : ℤ))).take 60),
         some ((List.replicate 100 ((0 : ℤ), (0 : ℤ))).drop 60)) ∧
     ((List.replicate 100 ((0 : ℤ), (0 : ℤ))).take 60).length +
       ((List.replicate 100 ((0 : ℤ), (0 : ℤ))).drop 60).length
       = (List.replicate 100 ((0 : ℤ), (0 : ℤ))).length ∧
     (List.replicate 100 ((0 : ℤ), (0 : ℤ))).take 60 ++
       (List.replicate 100 ((0 : ℤ), (0 : ℤ))).drop 60
       = List.replicate 100 ((0 : ℤ), (0 : ℤ)) ∧
     ((List.replicate 100 ((0 : ℤ), (0 : ℤ))).take 60).length
       = min 60 (List.replicate 100 ((0 : ℤ), (0 : ℤ))).length) ∧
    ((List.replicate 100 ((0 : ℤ), (0 : ℤ))).take 60).length = 60 ∧
    ((List.replicate 100 ((0 : ℤ), (0 : ℤ))).drop 60).length = 40 :=
  ⟨⟨by decide, rfl⟩,
    separate_edges_partition (fun _ => some 60)
      (List.replicate 100 ((0 : ℤ), (0 : ℤ))) 60 (by decide) rfl,
    by simp, by simp⟩

/-! ## Claim C8 -/

/-- C8: for every non-`None` trailing edge and every scale factor,
`compute_curvature` computes the absolute radius for that scale as the
scale factor times the extent (max minus min) of the transformed edge's
secondary coordinate; consequently the same nonzero scale factor gives
different radii to curves of different extent. -/
theorem curvature_radii {κ : Type} (oriented : List (ℚ × ℚ) → List ℚ → κ)
    (scales : List ℚ) (transpose_dims : Bool) (te : List (ℚ × ℚ))
    (_hne : te ≠ []) :
    compute_curvature oriented scales transpose_dims (some te)
      = some (oriented (transformEdge transpose_dims te)
          (computeRadii scales transpose_dims te)) ∧
    (∀ i, i < scales.length →
      (computeRadii scales transpose_dims te).getD i 0
        = scales.getD i 0 * edgeExtent (transformEdge transpose_dims te)) ∧
    (∀ te2 : List (ℚ × ℚ), ∀ s : ℚ, s ≠ 0 →
      edgeExtent (transformEdge transpose_dims te)
        ≠ edgeExtent (transformEdge transpose_dims te2) →
      s * edgeExtent (transformEdge transpose_dims te)
        ≠ s * edgeExtent (transformEdge transpose_dims te2)) := by
  refine ⟨rfl, fun i hi => ?_, fun te2 s hs hext => ?_⟩
  · rw [computeRadii, List.getD_eq_getElem?_getD, List.getElem?_map,
      List.getElem?_eq_getElem hi]
    simp [List.getD_eq_getElem?_getD, List.getElem?_eq_getElem hi]
  · exact fun hmul => hext (mul_left_cancel₀ hs hmul)

/-- C8 witness: a two-point edge of vertical extent 3 versus one of
extent 1, at scale factor 2 with `transpose_dims = true`. -/
theorem curvature_radii_witness :
    ([((0 : ℚ), (0 : ℚ)), (1, 3)] ≠ ([] : List (ℚ × ℚ))) ∧
    (compute_curvature (fun e r => (e, r)) [2] true
        (some [((0 : ℚ), (0 : ℚ)), (1, 3)])
      = some ((transformEdge true [((0 : ℚ), (0 : ℚ)), (1, 3)]),
          (computeRadii [2] true [((0 : ℚ), (0 : ℚ)), (1, 3)])) ∧
     (∀ i, i < ([2] : List ℚ).length →
       (computeRadii [2] true [((0 : ℚ), (0 : ℚ)), (1, 3)]).getD i 0
         = ([2] : List ℚ).getD i 0
           * edgeExtent (transformEdge true [((0 : ℚ), (0 : ℚ)), (1, 3)])) ∧
     (∀ te2 : List (ℚ × ℚ), ∀ s : ℚ, s ≠ 0 →
       edgeExtent (transformEdge true [((0 : ℚ), (0 : ℚ)), (1, 3)])
         ≠ edgeExtent (transformEdge true te2) →
       s * edgeExtent (transformEdge true [((0 : ℚ), (0 : ℚ)), (1, 3)])
         ≠ s * edgeExtent (transformEdge true te2))) :=
  ⟨by decide,
    curvature_radii (fun e r => (e, r)) [2] true
      [((0 : ℚ), (0 : ℚ)), (1, 3)] (by decide)⟩

/-! ## Claim C3 -/

theorem sum_sq_div (v : List ℚ) (c : ℝ) :
    ((v.map (fun x => (Rat.cast x : ℝ) / c)).map (fun y => y * y)).sum
      = (Rat.cast (sumSq v) : ℝ) / (c * c) := by
  induction v with
  | nil => simp [sumSq]
  | cons a t ih =>
    have hsq : sumSq (a :: t) = a * a + sumSq t := by simp [sumSq]
    rw [List.map_cons, List.map_cons, List.sum_cons, ih, hsq]
    push_cast
    rw [div_mul_div_comm, div_add_div_same]

/-- C3: every descriptor column produced by the normalization step
`feat /= np.sqrt(np.sum(feat * feat, axis=0))` has Euclidean norm within
`1e-6` of `1`, whenever the column's sum of squares is positive (the
condition under which the code's own `np.allclose` assertion lets a
descriptor through). -/
theorem descriptor_unit_norm (v : List ℚ) (h : 0 < sumSq v) :
    |l2norm (l2normalize v) - 1| < 1 / 1000000 := by
  have hS : (0 : ℝ) < (Rat.cast (sumSq v) : ℝ) := by exact_mod_cast h
  have hsqrt : Real.sqrt (Rat.cast (sumSq v) : ℝ)
        * Real.sqrt (Rat.cast (sumSq v) : ℝ)
      = (Rat.cast (sumSq v) : ℝ) := Real.mul_self_sqrt hS.le
  have hone : l2norm (l2normalize v) = 1 := by
    rw [l2norm, l2normalize, sum_sq_div, hsqrt, div_self hS.ne.symm,
      Real.sqrt_one]
  rw [hone]
  norm_num

/-- C3 witness: the column `[3, 4]` normalizes to a unit vector. -/
theorem descriptor_unit_norm_witness :
    0 < sumSq [(3 : ℚ), 4] ∧
    |l2norm (l2normalize [(3 : ℚ), 4]) - 1| < 1 / 1000000 :=
  ⟨by norm_num [sumSq], descriptor_unit_norm [(3 : ℚ), 4] (by norm_num [sumSq])⟩

/-! ## Helper lemmas: keypoint selection -/

theorem getD_replicate (n i : ℕ) (c d : ℚ) (h : i < n) :
    (List.replicate n c).getD i d = c := by
  rw [List.getD_eq_getElem?_getD, List.getElem?_replicate, if_pos h]
  rfl

theorem argrelmax_replicate (n : ℕ) (c : ℚ) :
    argrelmax (List.replicate n c) = [] := by
  rw [argrelmax]
  refine List.filter_eq_nil.mpr (fun i hi => ?_)
  simp only [List.mem_range, List.length_replicate] at hi
  simp only [decide_eq_true_eq, List.length_replicate, not_and]
  intro h0 h1
  rw [getD_replicate n (i - 1) c 0 (by omega), getD_replicate n i c 0 (by omega)]
  intro hlt
  exact absurd hlt (lt_irrefl c)

theorem rankByValDesc_nil (vals : List ℚ) : rankByValDesc vals [] = [] := rfl

theorem pySlice0_nil (stop : ℤ) : pySlice0 stop [] = [] := by
  simp [pySlice0]

theorem adaptive_no_maxima (numKp : ℕ) (M : List (List ℚ))
    (h : argrelmax (M.map (fun r => r.getLastD 0)) = []) :
    compute_curv_descriptors_keypoints false numKp M = none := by
  simp only [compute_curv_descriptors_keypoints, Bool.false_eq_true, if_false,
    h, rankByValDesc_nil, pySlice0_nil, sortNat]

/-! ## Claim C4 -/

/-- C4: a flat resampled curvature signal of length 1024 with
`num_keypoints = 4` and adaptive selection does not produce the keypoints
`[0, 1024]`: `argrelextrema` finds no maxima and the code's subsequent
`sorted_maxima_idx[0]` raises an `IndexError` (modelled by `none`),
contradicting the spec's required behaviour. -/
theorem flat_signal_adaptive_keypoints :
    compute_curv_descriptors_keypoints false 4 (List.replicate 1024 [(0 : ℚ)])
      = none := by
  refine adaptive_no_maxima 4 _ ?_
  have hcol : (List.replicate 1024 [(0 : ℚ)]).map (fun r => r.getLastD 0)
      = List.replicate 1024 (0 : ℚ) := by
    rw [List.map_replicate]
    rfl
  rw [hcol, argrelmax_replicate]

/-! ## Helper lemmas: the adaptive and uniform keypoint branches -/

theorem mem_argrelmax {v : List ℚ} {i : ℕ} (h : i ∈ argrelmax v) :
    0 < i ∧ i + 1 < v.length := by
  rw [argrelmax] at h
  have hp := List.of_mem_filter h
  simp only [decide_eq_true_eq] at hp
  exact ⟨hp.1, hp.2.1⟩

theorem argrelmax_nodup (v : List ℚ) : (argrelmax v).Nodup :=
  (List.nodup_range _).filter _

theorem pySlice0_take (numKp : ℕ) (l : List ℕ) (h : 2 ≤ numKp) :
    pySlice0 ((numKp : ℤ) - 2) l = l.take (numKp - 2) := by
  rw [pySlice0, if_pos (by omega : (0 : ℤ) ≤ (numKp : ℤ) - 2)]
  congr 1
  omega

theorem linspaceInt_spec (n numKp : ℕ) (h : 2 ≤ numKp) :
    (linspaceInt n numKp).length = numKp ∧ 0 ∈ linspaceInt n numKp ∧
      n ∈ linspaceInt n numKp := by
  have h0 : numKp ≠ 0 := by omega
  have h1 : numKp ≠ 1 := by omega
  rw [linspaceInt, if_neg h0, if_neg h1]
  refine ⟨by simp, ?_, ?_⟩
  · exact List.mem_map.mpr ⟨0, List.mem_range.mpr (by omega), by simp⟩
  · refine List.mem_map.mpr ⟨numKp - 1, List.mem_range.mpr (by omega), ?_⟩
    exact Nat.mul_div_cancel_left n (by omega : 0 < numKp - 1)

theorem adaptive_branch_spec (numKp : ℕ) (M : List (List ℚ)) (kps : List ℕ)
    (h2 : 2 ≤ numKp)
    (hres : compute_curv_descriptors_keypoints false numKp M = some kps) :
    kps = 0 :: specAdaptiveMid numKp (M.map (fun r => r.getLastD 0))
        ++ [M.length] ∧
      kps.length ≤ numKp := by
  simp only [compute_curv_descriptors_keypoints, Bool.false_eq_true, if_false]
    at hres
  set lastCol := M.map (fun r => r.getLastD 0) with hlastCol
  set capped := pySlice0 ((numKp : ℤ) - 2) (rankByValDesc lastCol
    (argrelmax lastCol)) with hcapped
  have hcap_take : capped
      = (rankByValDesc lastCol (argrelmax lastCol)).take (numKp - 2) :=
    pySlice0_take numKp _ h2
  have hcap_len : capped.length ≤ numKp - 2 := by
    rw [hcap_take]
    exact le_trans (List.length_take_le _ _) (le_refl _)
  have hcap_nodup : capped.Nodup := by
    rw [hcap_take]
    refine List.Nodup.sublist (List.take_sublist _ _) ?_
    exact ((rankByValDesc_perm lastCol (argrelmax lastCol)).nodup_iff).mpr
      (argrelmax_nodup lastCol)
  have hcap_pos : ∀ i ∈ capped, 0 < i := by
    intro i hi
    rw [hcap_take] at hi
    have hi2 := (rankByValDesc_perm lastCol (argrelmax lastCol)).mem_iff.mp
      (List.mem_of_mem_take hi)
    exact (mem_argrelmax hi2).1
  rcases hsort : sortNat capped with _ | ⟨hd, t⟩
  · rw [hsort] at hres
    simp at hres
  · rw [hsort] at hres
    have hsorted : List.Sorted (· ≤ ·) (hd :: t) := hsort ▸ sortNat_sorted capped
    have hnodup : (hd :: t).Nodup :=
      hsort ▸ (sortNat_perm capped).nodup_iff.mpr hcap_nodup
    have hposall : ∀ i ∈ hd :: t, 0 < i := by
      intro i hi
      refine hcap_pos i ((mem_sortNat i capped).mp ?_)
      rw [hsort]
      exact hi
    have hperm_capped : List.Perm (hd :: t) capped := hsort ▸ sortNat_perm capped
    set mid := if hd = 0 ∨ hd = 1 then t else hd :: t with hmid
    have hres2 : buildKeypoints (min numKp (2 + mid.length)) M.length mid
        = some kps := hres
    have hmid_filter :
        mid = (hd :: t).filter (fun i => decide (i ≠ 0 ∧ i ≠ 1)) := by
      by_cases hif : hd = 0 ∨ hd = 1
      · have hdpos := hposall hd (by simp)
        have hd1 : hd = 1 := by
          rcases hif with h0 | h1
          · omega
          · exact h1
        subst hd1
        have hnot1 : (1 : ℕ) ∉ t := (List.nodup_cons.mp hnodup).1
        have hfilt_t : t.filter (fun i => decide (i ≠ 0 ∧ i ≠ 1)) = t := by
          refine List.filter_eq_self.mpr (fun a ha => ?_)
          have hapos := hposall a (List.mem_cons_of_mem 1 ha)
          have ha1 : a ≠ 1 := fun haeq => hnot1 (haeq ▸ ha)
          simp only [decide_eq_true_eq]
          omega
        rw [hmid, if_pos hif, List.filter_cons,
          if_neg (by simp only [decide_eq_true_eq]; omega)]
        exact hfilt_t.symm
      · have hif2 := hif
        push_neg at hif2
        obtain ⟨hne0, hne1⟩ := hif2
        have hfilt_t : t.filter (fun i => decide (i ≠ 0 ∧ i ≠ 1)) = t := by
          refine List.filter_eq_self.mpr (fun a ha => ?_)
          have hle := (List.sorted_cons.mp hsorted).1 a ha
          simp only [decide_eq_true_eq]
          omega
        rw [hmid, if_neg hif, List.filter_cons,
          if_pos (by simp only [decide_eq_true_eq]; omega)]
        exact (congrArg (List.cons hd) hfilt_t).symm
    clear_value mid
    have hmid_sorted : List.Sorted (· ≤ ·) mid :=
      hmid_filter ▸ hsorted.filter _
    have hmid_len : mid.length ≤ numKp - 2 := by
      rw [hmid_filter]
      calc ((hd :: t).filter (fun i => decide (i ≠ 0 ∧ i ≠ 1))).length
          ≤ (hd :: t).length := List.length_filter_le _ _
        _ = capped.length := hperm_capped.length_eq
        _ ≤ numKp - 2 := hcap_len
    have hmid_spec : mid = specAdaptiveMid numKp lastCol := by
      have hspec_perm : List.Perm
          (sortNat (capped.filter (fun i => decide (i ≠ 0 ∧ i ≠ 1))))
          (capped.filter (fun i => decide (i ≠ 0 ∧ i ≠ 1))) :=
        sortNat_perm _
      have hmid_perm : List.Perm mid
          (capped.filter (fun i => decide (i ≠ 0 ∧ i ≠ 1))) :=
        hmid_filter ▸ hperm_capped.filter _
      have hspec_sorted : List.Sorted (· ≤ ·)
          (sortNat (capped.filter (fun i => decide (i ≠ 0 ∧ i ≠ 1)))) :=
        sortNat_sorted _
      have heq := List.eq_of_perm_of_sorted
        (hmid_perm.trans hspec_perm.symm) hmid_sorted hspec_sorted
      rw [heq, specAdaptiveMid, ← hcap_take]
    have hmin : min numKp (2 + mid.length) = 2 + mid.length :=
      Nat.min_eq_right (by omega)
    rw [hmin, buildKeypoints, if_neg (by omega : ¬ (2 + mid.length = 0)),
      if_neg (by omega : ¬ (2 + mid.length = 1)),
      if_pos (by omega : mid.length = 2 + mid.length - 2)] at hres2
    have hkps : kps = 0 :: mid ++ [M.length] := (Option.some.inj hres2).symm
    constructor
    · rw [hkps, hmid_spec]
    · rw [hkps]
      have hlen : (0 :: mid ++ [M.length]).length = mid.length + 2 := by simp
      rw [hlen]
      clear hmin hres2 hkps
      omega

/-! ## Claim C5 -/

/-- C5 counterexample: with `num_keypoints = 1` and uniform selection on a
resampled matrix of 3 rows, `np.linspace(0, 3, 1)` produces the non-empty
keypoint set `[0]`, which does not contain the last resampled index 3 —
so the claim's universal quantification over every configuration fails. -/
theorem keypoint_selection_counterexample :
    compute_curv_descriptors_keypoints true 1 (List.replicate 3 [(0 : ℚ)])
        = some [0] ∧
      ([0] : List ℕ) ≠ [] ∧
      (List.replicate 3 [(0 : ℚ)]).length ∉ ([0] : List ℕ) :=
  ⟨rfl, by decide, by decide⟩

/-- C5 (amended: for requested `num_keypoints ≥ 2`): the number of selected
keypoints is at most `num_keypoints`; produced keypoints always include
index 0 and the last resampled index (the row count); and in the adaptive
branch the interior keypoints are exactly the local maxima of the
highest-scale column ranked by magnitude descending, capped to
`num_keypoints - 2`, with maxima at index 0 or 1 discarded and the rest
sorted by position. -/
theorem keypoint_selection_spec (uniform : Bool) (numKp : ℕ)
    (M : List (List ℚ)) (kps : List ℕ) (h2 : 2 ≤ numKp)
    (hres : compute_curv_descriptors_keypoints uniform numKp M = some kps) :
    kps.length ≤ numKp ∧
    (kps ≠ [] → 0 ∈ kps ∧ M.length ∈ kps) ∧
    (uniform = false →
      kps = 0 :: specAdaptiveMid numKp (M.map (fun r => r.getLastD 0))
        ++ [M.length]) := by
  cases uniform with
  | true =>
    have hkps : kps = linspaceInt M.length numKp := by
      simp only [compute_curv_descriptors_keypoints, if_pos] at hres
      exact (Option.some.inj hres).symm
    obtain ⟨hlen, h0, hn⟩ := linspaceInt_spec M.length numKp h2
    subst hkps
    exact ⟨le_of_eq hlen, fun _ => ⟨h0, hn⟩, fun hfalse => Bool.noConfusion hfalse⟩
  | false =>
    obtain ⟨hkps, hlen⟩ := adaptive_branch_spec numKp M kps h2 hres
    refine ⟨hlen, fun _ => ?_, fun _ => hkps⟩
    subst hkps
    constructor
    · simp
    · simp

/-- C5 witness: uniform selection with `num_keypoints = 4` on a matrix of
5 rows yields 4 keypoints including 0 and the last index 5. -/
theorem keypoint_selection_spec_witness :
    2 ≤ 4 ∧
    compute_curv_descriptors_keypoints true 4 (List.replicate 5 [(0 : ℚ)])
      = some [0, 1, 3, 5] ∧
    (([0, 1, 3, 5] : List ℕ).length ≤ 4 ∧
      (([0, 1, 3, 5] : List ℕ) ≠ [] →
        0 ∈ ([0, 1, 3, 5] : List ℕ) ∧
        (List.replicate 5 [(0 : ℚ)]).length ∈ ([0, 1, 3, 5] : List ℕ)) ∧
      ((true : Bool) = false →
        ([0, 1, 3, 5] : List ℕ)
          = 0 :: specAdaptiveMid 4
              ((List.replicate 5 [(0 : ℚ)]).map (fun r => r.getLastD 0))
            ++ [(List.replicate 5 [(0 : ℚ)]).length])) :=
  ⟨by decide, rfl,
    keypoint_selection_spec true 4 (List.replicate 5 [(0 : ℚ)]) [0, 1, 3, 5]
      (by decide) rfl⟩

/-! ## Helper lemmas: pipeline stages -/

theorem zip_get? {β γ : Type} (l1 : List β) (l2 : List γ) (i : ℕ) :
    (l1.zip l2).get? i
      = (l1.get? i).bind (fun a => (l2.get? i).map (fun b => (a, b))) := by
  induction l1 generalizing l2 i with
  | nil => simp
  | cons a t ih =>
    cases l2 with
    | nil => simp
    | cons b t2 =>
      cases i with
      | zero => simp
      | succ j => simpa using ih t2 j

theorem stageRun_get? {β γ : Type} (f : Option β → Option γ)
    (ss : List Bool) (vs : List (Option β)) (i : ℕ) :
    (stageRun f ss vs).1.get? i
        = ((ss.zip vs).get? i).map (fun p => (stageStep f p).1) ∧
    (stageRun f ss vs).2.get? i
        = ((ss.zip vs).get? i).map (fun p => (stageStep f p).2) := by
  constructor
  · simp [stageRun, List.get?_map, Function.comp_def]
  · simp [stageRun, List.get?_map, Function.comp_def]

theorem stageRun_length {β γ : Type} (f : Option β → Option γ)
    (ss : List Bool) (vs : List (Option β)) :
    (stageRun f ss vs).1.length = min ss.length vs.length ∧
    (stageRun f ss vs).2.length = min ss.length vs.length := by
  constructor
  · simp [stageRun]
  · simp [stageRun]

theorem stageRun_false {β γ : Type} (f : Option β → Option γ)
    (ss : List Bool) (vs : List (Option β)) (i : ℕ)
    (hs : ss.get? i = some false) (hv : i < vs.length) :
    (stageRun f ss vs).1.get? i = some false ∧
    (stageRun f ss vs).2.get? i = some none := by
  cases hv2 : vs.get? i with
  | none =>
    rw [List.get?_eq_none] at hv2
    omega
  | some v =>
    have hz : (ss.zip vs).get? i = some (false, v) := by
      rw [zip_get?, hs, hv2]
      rfl
    rw [(stageRun_get? f ss vs i).1, (stageRun_get? f ss vs i).2, hz]
    constructor
    · simp [stageStep]
    · simp [stageStep]

theorem stageRun_true {β γ : Type} (f : Option β → Option γ)
    (ss : List Bool) (vs : List (Option β)) (i : ℕ)
    (ht : (stageRun f ss vs).1.get? i = some true) :
    ss.get? i = some true ∧
    ∃ c, (stageRun f ss vs).2.get? i = some (some c) := by
  rw [(stageRun_get? f ss vs i).1] at ht
  cases hz : (ss.zip vs).get? i with
  | none =>
    rw [hz] at ht
    simp at ht
  | some p =>
    obtain ⟨s, v⟩ := p
    rw [hz] at ht
    simp only [Option.map_some'] at ht
    have hzz := (List.get?_zip_eq_some ss vs (s, v) i).mp hz
    cases s with
    | false =>
      rw [stageStep] at ht
      simp at ht
    | true =>
      cases hf : f v with
      | none =>
        rw [stageStep] at ht
        simp [hf] at ht
      | some c =>
        refine ⟨hzz.1, c, ?_⟩
        rw [(stageRun_get? f ss vs i).2, hz]
        simp [stageStep, hf]

theorem stageRun_local {β γ : Type} (f : Option β → Option γ)
    (ss ss2 : List Bool) (vs vs2 : List (Option β)) (i : ℕ)
    (hs : ss.get? i = ss2.get? i) (hv : vs.get? i = vs2.get? i) :
    (stageRun f ss vs).1.get? i = (stageRun f ss2 vs2).1.get? i ∧
    (stageRun f ss vs).2.get? i = (stageRun f ss2 vs2).2.get? i := by
  have hz : (ss.zip vs).get? i = (ss2.zip vs2).get? i := by
    rw [zip_get?, zip_get?, hs, hv]
  constructor
  · rw [(stageRun_get? f ss vs i).1, (stageRun_get? f ss2 vs2 i).1, hz]
  · rw [(stageRun_get? f ss vs i).2, (stageRun_get? f ss2 vs2 i).2, hz]

/-! ## Claim C10 -/

/-- C10: success flags are downgrade-only in each of the four pipeline
stages (outline, trailing edges, curvatures, curvature descriptors): a
`False` input flag forces a `False` output flag and a `None` output value
at the same position, and a `True` output flag implies the input flag was
`True` and the stage produced a non-`None` value. -/
theorem success_flags_downgrade_only :
    (∀ (α β : Type) (extract : Option α → Option β) (ss : List Bool)
        (vs : List (Option α)) (i : ℕ),
      (ss.get? i = some false → i < vs.length →
        (ibeis_plugin_curvrank_outline extract ss vs).1.get? i = some false ∧
        (ibeis_plugin_curvrank_outline extract ss vs).2.get? i = some none) ∧
      ((ibeis_plugin_curvrank_outline extract ss vs).1.get? i = some true →
        ss.get? i = some true ∧
        ∃ b, (ibeis_plugin_curvrank_outline extract ss vs).2.get? i
          = some (some b))) ∧
    (∀ (P : Type) (splitFn : List P → Option ℕ) (ss : List Bool)
        (vs : List (Option (List P))) (i : ℕ),
      (ss.get? i = some false → i < vs.length →
        (ibeis_plugin_curvrank_trailing_edges splitFn ss vs).1.get? i
          = some false ∧
        (ibeis_plugin_curvrank_trailing_edges splitFn ss vs).2.get? i
          = some none) ∧
      ((ibeis_plugin_curvrank_trailing_edges splitFn ss vs).1.get? i
          = some true →
        ss.get? i = some true ∧
        ∃ b, (ibeis_plugin_curvrank_trailing_edges splitFn ss vs).2.get? i
          = some (some b))) ∧
    (∀ (κ : Type) (oriented : List (ℚ × ℚ) → List ℚ → κ) (scalesQ : List ℚ)
        (td : Bool) (ss : List Bool) (vs : List (Option (List (ℚ × ℚ))))
        (i : ℕ),
      (ss.get? i = some false → i < vs.length →
        (ibeis_plugin_curvrank_curvatures oriented scalesQ td ss vs).1.get? i
          = some false ∧
        (ibeis_plugin_curvrank_curvatures oriented scalesQ td ss vs).2.get? i
          = some none) ∧
      ((ibeis_plugin_curvrank_curvatures oriented scalesQ td ss vs).1.get? i
          = some true →
        ss.get? i = some true ∧
        ∃ b, (ibeis_plugin_curvrank_curvatures oriented scalesQ td ss
          vs).2.get? i = some (some b))) ∧
    (∀ (κ δ : Type) (computeDescs : κ → Option (List δ)) (scalesD : List ℚ)
        (ss : List Bool) (vs : List (Option κ)) (i : ℕ),
      (ss.get? i = some false → i < vs.length →
        (ibeis_plugin_curvrank_curvature_descriptors computeDescs scalesD ss
          vs).1.get? i = some false ∧
        (ibeis_plugin_curvrank_curvature_descriptors computeDescs scalesD ss
          vs).2.get? i = some none) ∧
      ((ibeis_plugin_curvrank_curvature_descriptors computeDescs scalesD ss
          vs).1.get? i = some true →
        ss.get? i = some true ∧
        ∃ b, (ibeis_plugin_curvrank_curvature_descriptors computeDescs
          scalesD ss vs).2.get? i = some (some b))) := by
  refine ⟨?_, ?_, ?_, ?_⟩
  · intro α β extract ss vs i
    exact ⟨fun hs hv => stageRun_false extract ss vs i hs hv,
      fun ht => stageRun_true extract ss vs i ht⟩
  · intro P splitFn ss vs i
    exact ⟨fun hs hv => stageRun_false _ ss vs i hs hv,
      fun ht => stageRun_true _ ss vs i ht⟩
  · intro κ oriented scalesQ td ss vs i
    exact ⟨fun hs hv => stageRun_false _ ss vs i hs hv,
      fun ht => stageRun_true _ ss vs i ht⟩
  · intro κ δ computeDescs scalesD ss vs i
    exact ⟨fun hs hv => stageRun_false _ ss vs i hs hv,
      fun ht => stageRun_true _ ss vs i ht⟩

/-- C10 witness: each of the four stages exercised on singleton batches, in
both the failed-input and the successful-output direction. -/
theorem success_flags_downgrade_only_witness :
    (([false] : List Bool).get? 0 = some false ∧
      0 < ([none] : List (Option ℕ)).length ∧
      ((ibeis_plugin_curvrank_outline (fun _ : Option ℕ => (none : Option ℕ))
          [false] [none]).1.get? 0 = some false ∧
        (ibeis_plugin_curvrank_outline (fun _ : Option ℕ => (none : Option ℕ))
          [false] [none]).2.get? 0 = some none)) ∧
    ((ibeis_plugin_curvrank_outline (fun _ : Option ℕ => some (0 : ℕ)) [true]
        [some 0]).1.get? 0 = some true ∧
      (([true] : List Bool).get? 0 = some true ∧
        ∃ b, (ibeis_plugin_curvrank_outline (fun _ : Option ℕ => some (0 : ℕ)) [true]
          [some 0]).2.get? 0 = some (some b))) ∧
    ((ibeis_plugin_curvrank_trailing_edges (fun _ : List ℕ => some 0) [true]
        [some [0]]).1.get? 0 = some true ∧
      (([true] : List Bool).get? 0 = some true ∧
        ∃ b, (ibeis_plugin_curvrank_trailing_edges (fun _ : List ℕ => some 0)
          [true] [some [0]]).2.get? 0 = some (some b))) ∧
    ((ibeis_plugin_curvrank_curvatures (fun _ _ => (0 : ℕ)) [] true [true]
        [some []]).1.get? 0 = some true ∧
      (([true] : List Bool).get? 0 = some true ∧
        ∃ b, (ibeis_plugin_curvrank_curvatures (fun _ _ => (0 : ℕ)) [] true
          [true] [some []]).2.get? 0 = some (some b))) ∧
    ((ibeis_plugin_curvrank_curvature_descriptors
        (fun _ : ℕ => some ([] : List ℕ)) [] [true] [some 0]).1.get? 0
        = some true ∧
      (([true] : List Bool).get? 0 = some true ∧
        ∃ b, (ibeis_plugin_curvrank_curvature_descriptors
          (fun _ : ℕ => some ([] : List ℕ)) [] [true] [some 0]).2.get? 0
          = some (some b))) :=
  ⟨⟨by decide, by decide,
    (success_flags_downgrade_only.1 ℕ ℕ (fun _ => none) [false] [none] 0).1
      (by decide) (by decide)⟩,
   ⟨by decide,
    (success_flags_downgrade_only.1 ℕ ℕ (fun _ => some 0) [true] [some 0]
      0).2 (by decide)⟩,
   ⟨by decide,
    (success_flags_downgrade_only.2.1 ℕ (fun _ => some 0) [true] [some [0]]
      0).2 (by decide)⟩,
   ⟨by decide,
    (success_flags_downgrade_only.2.2.1 ℕ (fun _ _ => 0) [] true [true]
      [some []] 0).2 (by decide)⟩,
   ⟨by decide,
    (success_flags_downgrade_only.2.2.2 ℕ ℕ (fun _ => some []) [] [true]
      [some 0] 0).2 (by decide)⟩⟩

/-! ## Claim C7 -/

/-- C7: a subject whose flag is `False` entering the outline stage gets a
`False` flag and a `None` value from every downstream stage (outline,
trailing edges, curvatures, curvature descriptors) without raising, and
every stage output at a position depends only on the inputs at that
position, so one subject's failure never alters its siblings' results. -/
theorem pipeline_failure_short_circuit (α κ δ : Type)
    (extract : Option α → Option (List (ℚ × ℚ)))
    (splitFn : List (ℚ × ℚ) → Option ℕ)
    (oriented : List (ℚ × ℚ) → List ℚ → κ) (scalesQ : List ℚ) (td : Bool)
    (computeDescs : κ → Option (List δ)) (scalesD : List ℚ)
    (ss : List Bool) (vs : List (Option α)) (i : ℕ)
    (hs : ss.get? i = some false) (hv : i < vs.length) :
    ((ibeis_plugin_curvrank_pipeline_compute extract splitFn oriented scalesQ
        td computeDescs scalesD ss vs).1.1.get? i = some false ∧
      (ibeis_plugin_curvrank_pipeline_compute extract splitFn oriented scalesQ
        td computeDescs scalesD ss vs).1.2.get? i = some none ∧
      (ibeis_plugin_curvrank_pipeline_compute extract splitFn oriented scalesQ
        td computeDescs scalesD ss vs).2.1.1.get? i = some false ∧
      (ibeis_plugin_curvrank_pipeline_compute extract splitFn oriented scalesQ
        td computeDescs scalesD ss vs).2.1.2.get? i = some none ∧
      (ibeis_plugin_curvrank_pipeline_compute extract splitFn oriented scalesQ
        td computeDescs scalesD ss vs).2.2.1.1.get? i = some false ∧
      (ibeis_plugin_curvrank_pipeline_compute extract splitFn oriented scalesQ
        td computeDescs scalesD ss vs).2.2.1.2.get? i = some none ∧
      (ibeis_plugin_curvrank_pipeline_compute extract splitFn oriented scalesQ
        td computeDescs scalesD ss vs).2.2.2.1.get? i = some false ∧
      (ibeis_plugin_curvrank_pipeline_compute extract splitFn oriented scalesQ
        td computeDescs scalesD ss vs).2.2.2.2.get? i = some none) ∧
    (∀ (ss2 : List Bool) (vs2 : List (Option α)),
      ss.get? i = ss2.get? i → vs.get? i = vs2.get? i →
      ((ibeis_plugin_curvrank_pipeline_compute extract splitFn oriented
          scalesQ td computeDescs scalesD ss vs).2.2.2.1.get? i
        = (ibeis_plugin_curvrank_pipeline_compute extract splitFn oriented
          scalesQ td computeDescs scalesD ss2 vs2).2.2.2.1.get? i ∧
       (ibeis_plugin_curvrank_pipeline_compute extract splitFn oriented
          scalesQ td computeDescs scalesD ss vs).2.2.2.2.get? i
        = (ibeis_plugin_curvrank_pipeline_compute extract splitFn oriented
          scalesQ td computeDescs scalesD ss2 vs2).2.2.2.2.get? i)) := by
  have hi_ss : i < ss.length := by
    by_contra hge
    rw [List.get?_eq_none.mpr (by omega)] at hs
    simp at hs
  constructor
  · have h1 := stageRun_false extract ss vs i hs hv
    have hlen1 := stageRun_length extract ss vs
    have hi2a : i < (stageRun extract ss vs).1.length := by
      rw [hlen1.1]
      omega
    have hi2b : i < (stageRun extract ss vs).2.length := by
      rw [hlen1.2]
      omega
    have h2 := stageRun_false
      (fun oo => oo.bind (fun o => (separate_edges splitFn o).2))
      (stageRun extract ss vs).1 (stageRun extract ss vs).2 i h1.1 hi2b
    set t := stageRun (fun oo => oo.bind (fun o => (separate_edges splitFn o).2))
      (stageRun extract ss vs).1 (stageRun extract ss vs).2 with ht
    have hlen2 := stageRun_length
      (fun oo => oo.bind (fun o => (separate_edges splitFn o).2))
      (stageRun extract ss vs).1 (stageRun extract ss vs).2
    have hi3 : i < t.2.length := by
      rw [← ht] at hlen2
      rw [hlen2.2]
      omega
    have h3 := stageRun_false
      (fun ote => compute_curvature oriented scalesQ td ote) t.1 t.2 i h2.1 hi3
    set c := stageRun (fun ote => compute_curvature oriented scalesQ td ote)
      t.1 t.2 with hc
    have hlen3 := stageRun_length
      (fun ote => compute_curvature oriented scalesQ td ote) t.1 t.2
    have hi4 : i < c.2.length := by
      rw [← hc] at hlen3
      rw [hlen3.2, ← ht] at *
      rw [hlen2.1, hlen2.2]
      omega
    have h4 := stageRun_false
      (fun oc => (oc.bind computeDescs).map (fun l => scalesD.zip l))
      c.1 c.2 i h3.1 hi4
    exact ⟨h1.1, h1.2, h2.1, h2.2, h3.1, h3.2, h4.1, h4.2⟩
  · intro ss2 vs2 hseq hveq
    have l1 := stageRun_local extract ss ss2 vs vs2 i hseq hveq
    have l2 := stageRun_local
      (fun oo => oo.bind (fun o => (separate_edges splitFn o).2))
      (stageRun extract ss vs).1 (stageRun extract ss2 vs2).1
      (stageRun extract ss vs).2 (stageRun extract ss2 vs2).2 i l1.1 l1.2
    have l3 := stageRun_local
      (fun ote => compute_curvature oriented scalesQ td ote)
      _ _ _ _ i l2.1 l2.2
    have l4 := stageRun_local
      (fun oc => (oc.bind computeDescs).map (fun l => scalesD.zip l))
      _ _ _ _ i l3.1 l3.2
    exact ⟨l4.1, l4.2⟩

/-- C7 witness: a single subject with a `False` keypoint flag propagates
`(False, None)` through all downstream stages. -/
theorem pipeline_failure_short_circuit_witness :
    (([false] : List Bool).get? 0 = some false ∧
      0 < ([none] : List (Option ℕ)).length) ∧
    (((ibeis_plugin_curvrank_pipeline_compute
        (fun _ : Option ℕ => (none : Option (List (ℚ × ℚ))))
        (fun _ => none) (fun _ _ => (0 : ℕ)) [] false (fun _ : ℕ => (none : Option (List ℕ))) []
        [false] [none]).1.1.get? 0 = some false ∧
      (ibeis_plugin_curvrank_pipeline_compute
        (fun _ : Option ℕ => (none : Option (List (ℚ × ℚ))))
        (fun _ => none) (fun _ _ => (0 : ℕ)) [] false (fun _ : ℕ => (none : Option (List ℕ))) []
        [false] [none]).1.2.get? 0 = some none ∧
      (ibeis_plugin_curvrank_pipeline_compute
        (fun _ : Option ℕ => (none : Option (List (ℚ × ℚ))))
        (fun _ => none) (fun _ _ => (0 : ℕ)) [] false (fun _ : ℕ => (none : Option (List ℕ))) []
        [false] [none]).2.1.1.get? 0 = some false ∧
      (ibeis_plugin_curvrank_pipeline_compute
        (fun _ : Option ℕ => (none : Option (List (ℚ × ℚ))))
        (fun _ => none) (fun _ _ => (0 : ℕ)) [] false (fun _ : ℕ => (none : Option (List ℕ))) []
        [false] [none]).2.1.2.get? 0 = some none ∧
      (ibeis_plugin_curvrank_pipeline_compute
        (fun _ : Option ℕ => (none : Option (List (ℚ × ℚ))))
        (fun _ => none) (fun _ _ => (0 : ℕ)) [] false (fun _ : ℕ => (none : Option (List ℕ))) []
        [false] [none]).2.2.1.1.get? 0 = some false ∧
      (ibeis_plugin_curvrank_pipeline_compute
        (fun _ : Option ℕ => (none : Option (List (ℚ × ℚ))))
        (fun _ => none) (fun _ _ => (0 : ℕ)) [] false (fun _ : ℕ => (none : Option (List ℕ))) []
        [false] [none]).2.2.1.2.get? 0 = some none ∧
      (ibeis_plugin_curvrank_pipeline_compute
        (fun _ : Option ℕ => (none : Option (List (ℚ × ℚ))))
        (fun _ => none) (fun _ _ => (0 : ℕ)) [] false (fun _ : ℕ => (none : Option (List ℕ))) []
        [false] [none]).2.2.2.1.get? 0 = some false ∧
      (ibeis_plugin_curvrank_pipeline_compute
        (fun _ : Option ℕ => (none : Option (List (ℚ × ℚ))))
        (fun _ => none) (fun _ _ => (0 : ℕ)) [] false (fun _ : ℕ => (none : Option (List ℕ))) []
        [false] [none]).2.2.2.2.get? 0 = some none) ∧
    (∀ (ss2 : List Bool) (vs2 : List (Option ℕ)),
      ([false] : List Bool).get? 0 = ss2.get? 0 →
      ([none] : List (Option ℕ)).get? 0 = vs2.get? 0 →
      ((ibeis_plugin_curvrank_pipeline_compute
          (fun _ : Option ℕ => (none : Option (List (ℚ × ℚ))))
          (fun _ => none) (fun _ _ => (0 : ℕ)) [] false (fun _ : ℕ => (none : Option (List ℕ))) []
          [false] [none]).2.2.2.1.get? 0
        = (ibeis_plugin_curvrank_pipeline_compute
          (fun _ : Option ℕ => (none : Option (List (ℚ × ℚ))))
          (fun _ => none) (fun _ _ => (0 : ℕ)) [] false (fun _ : ℕ => (none : Option (List ℕ))) []
          ss2 vs2).2.2.2.1.get? 0 ∧
       (ibeis_plugin_curvrank_pipeline_compute
          (fun _ : Option ℕ => (none : Option (List (ℚ × ℚ))))
          (fun _ => none) (fun _ _ => (0 : ℕ)) [] false (fun _ : ℕ => (none : Option (List ℕ))) []
          [false] [none]).2.2.2.2.get? 0
        = (ibeis_plugin_curvrank_pipeline_compute
          (fun _ : Option ℕ => (none : Option (List (ℚ × ℚ))))
          (fun _ => none) (fun _ _ => (0 : ℕ)) [] false (fun _ : ℕ => (none : Option (List ℕ))) []
          ss2 vs2).2.2.2.2.get? 0))) :=
  ⟨⟨by decide, by decide⟩,
    pipeline_failure_short_circuit ℕ ℕ ℕ
      (fun _ => none) (fun _ => none) (fun _ _ => 0) [] false (fun _ => none)
      [] [false] [none] 0 (by decide) (by decide)⟩

end CurvRank
